import Mathlib

/-!
Verification development for the `xmlquery` utility: a shallow embedding of
its pattern compiler (`Pattern::new`), wildcard matcher
(`Pattern::pattern_check`), table-extraction engine (`print_by_pattern`,
`cartesian_product`, `parse_file`) and filesystem traversal pipeline
(`process_path`, `process_folder`, `process_file`), together with theorems
about them.

Strings are embedded as `List Char`; the Rust code scans bytes, but every
byte it compares against (`{`, `}`, `,`, `/`, `*`) is ASCII, so byte
positions and character positions agree at every split the code performs.
Machine integers index vectors well below overflow, so `Nat` is used
directly.  Panics (`unwrap`, `assert!`, `unreachable!`) are embedded as
`Option.none` results; `eprintln!` diagnostics are embedded as values
accumulated in a trace.
-/

namespace XmlQuery

/-- Embedding of Rust `str::split_once(c)`: split at the first occurrence of
`c`, returning the parts before and after it, or `none` when absent. -/
def splitOnce (c : Char) : List Char → Option (List Char × List Char)
  | [] => none
  | x :: xs =>
    if x = c then some ([], xs)
    else (splitOnce c xs).map (fun p => (x :: p.1, p.2))

/-- Embedding of Rust `str::rfind(c)`: index of the last occurrence of `c`. -/
def rfindChar (c : Char) : List Char → Option Nat
  | [] => none
  | x :: xs =>
    match rfindChar c xs with
    | some i => some (i + 1)
    | none => if x = c then some 0 else none

/-- Embedding of Rust `str::find(sub)`: first index at which `sub` occurs. -/
def findSub (needle : List Char) (hay : List Char) : Option Nat :=
  if needle.isPrefixOf hay then some 0
  else
    match hay with
    | [] => none
    | _ :: t => (findSub needle t).map (· + 1)

/-- Cons a character onto the first chunk of a chunk list (helper shared by
the splitters below; an empty chunk list gets a fresh singleton chunk). -/
def consHead (c : Char) : List (List Char) → List (List Char)
  | [] => [[c]]
  | x :: xs => (c :: x) :: xs

/-- Split a character list at every occurrence of `c` (used to render the
matcher's `while`/`split_once` loop as a fold over the `*`-separated
sections of the interior pattern). -/
def splitAll (c : Char) : List Char → List (List Char)
  | [] => [[]]
  | x :: xs => if x = c then [] :: splitAll c xs else consHead x (splitAll c xs)

/-- Embedding of the `while !pattern.is_empty()` loop of
`Pattern::pattern_check`: each `*`-separated section of the interior pattern
must be found, in order, left-to-right, in what remains of the target; the
scan resumes immediately after each found section. -/
def scanSections : List (List Char) → List Char → Bool
  | [], _ => true
  | sec :: rest, tgt =>
    match findSub sec tgt with
    | none => false
    | some i => scanSections rest (tgt.drop (i + sec.length))

/-- Embedding of Rust `Pattern::pattern_check` (src/pattern.rs).  With no
`*`, exact equality.  Otherwise the part before the first `*` must be a
prefix of the target; with a single `*`, the remainder must be a suffix.
With two or more `*`, `split_at(last_index)` keeps the last `*` itself
inside the suffix that is checked with `ends_with`, exactly as the Rust
code does; the part before the last `*` is scanned section by section. -/
def pattern_check (pattern target : List Char) : Bool :=
  match splitOnce '*' pattern with
  | none => pattern == target
  | some (starts, pat1) =>
    if ¬ starts.isPrefixOf target then false
    else
      match rfindChar '*' pat1 with
      | none => pat1.isSuffixOf target
      | some lastIndex =>
        let interior := pat1.take lastIndex
        let ends := pat1.drop lastIndex
        if ¬ ends.isSuffixOf target then false
        else scanSections (splitAll '*' interior) target

/-- Embedding of the Rust type `Pattern<'a>(Vec<(&'a str, Pattern<'a>)>)`:
a tree whose node holds an ordered list of (segment, child) pairs. -/
inductive Pattern where
  | mk (children : List (List Char × Pattern)) : Pattern

/-- The ordered (segment, child) pairs of a pattern node (the `Vec` field). -/
def Pattern.children : Pattern → List (List Char × Pattern)
  | .mk l => l

/-- Embedding of `Pattern::is_leaf`: no children. -/
def Pattern.is_leaf (p : Pattern) : Bool := p.children.isEmpty

theorem sizeOf_lt_of_mem_children (p : Pattern) (c : List Char × Pattern)
    (h : c ∈ p.children) : sizeOf c.2 < sizeOf p := by
  obtain ⟨l⟩ := p
  simp only [Pattern.children] at h
  have h1 := List.sizeOf_lt_of_mem h
  obtain ⟨s, q⟩ := c
  simp only [Pattern.mk.sizeOf_spec, Prod.mk.sizeOf_spec] at *
  omega

/-- Embedding of `Pattern::count_leafs`: 1 for a leaf, else the sum of the
children's leaf counts. -/
def Pattern.count_leafs (p : Pattern) : Nat :=
  if p.is_leaf then 1
  else (p.children.attach.map (fun c => c.1.2.count_leafs)).sum
termination_by sizeOf p
decreasing_by exact sizeOf_lt_of_mem_children p c.1 c.2

theorem Pattern.count_leafs_eq (p : Pattern) :
    p.count_leafs =
      if p.is_leaf then 1 else (p.children.map (fun c => c.2.count_leafs)).sum := by
  rw [Pattern.count_leafs, List.attach_map_val p.children (fun c => c.2.count_leafs)]

/-- Embedding of the byte scan of `Pattern::new` over the interior of a
braced pattern: split at the commas lying at brace-nesting depth zero,
fail (`assert_ne!(depth, 0)`) on a closing brace at depth zero, track the
depth otherwise. -/
def splitTop (depth : Nat) : List Char → Option (List (List Char))
  | [] => some [[]]
  | c :: rest =>
    if c = '\x7b' then (splitTop (depth + 1) rest).map (consHead c)
    else if c = '\x7d' then
      if depth = 0 then none else (splitTop (depth - 1) rest).map (consHead c)
    else if c = ',' then
      if depth = 0 then (splitTop 0 rest).map (List.cons [])
      else (splitTop depth rest).map (consHead c)
    else (splitTop depth rest).map (consHead c)

theorem consHead_spec {c : Char} {cs cs' : List (List Char)} {n : Nat}
    (hc : consHead c cs' = cs) (hne : cs' ≠ [])
    (hlen : (cs'.map List.length).sum + cs'.length = n) :
    cs ≠ [] ∧ (cs.map List.length).sum + cs.length = n + 1 := by
  subst hc
  cases cs' with
  | nil => exact absurd rfl hne
  | cons x xs =>
    refine ⟨by simp [consHead], ?_⟩
    simp only [consHead, List.map_cons, List.sum_cons, List.length_cons] at *
    omega

theorem splitTop_spec (l : List Char) : ∀ (d : Nat) (cs : List (List Char)),
    splitTop d l = some cs →
    cs ≠ [] ∧ (cs.map List.length).sum + cs.length = l.length + 1 := by
  induction l with
  | nil =>
    intro d cs h
    simp only [splitTop, Option.some.injEq] at h
    subst h; simp
  | cons c rest ih =>
    intro d cs h
    rw [splitTop] at h
    split_ifs at h with h1 h2 h3 h4 h5
    all_goals
      obtain ⟨cs', hs, hc⟩ := Option.map_eq_some'.mp h
    all_goals
      obtain ⟨hne, hlen⟩ := ih _ _ hs
    all_goals
      first
      | simpa using consHead_spec hc hne hlen
      | (subst hc
         refine ⟨by simp, ?_⟩
         simp only [List.map_cons, List.sum_cons, List.length_cons,
           List.length_nil] at hlen ⊢
         omega)

theorem splitOnce_eq_append (c : Char) (l : List Char) :
    ∀ (a b : List Char), splitOnce c l = some (a, b) → l = a ++ c :: b := by
  induction l with
  | nil => intro a b h; simp [splitOnce] at h
  | cons x xs ih =>
    intro a b h
    rw [splitOnce] at h
    split_ifs at h with h1
    · simp only [Option.some.injEq, Prod.mk.injEq] at h
      obtain ⟨ha, hb⟩ := h
      subst ha; subst hb; subst h1; rfl
    · obtain ⟨⟨a', b'⟩, hs, hc⟩ := Option.map_eq_some'.mp h
      simp only [Prod.mk.injEq] at hc
      obtain ⟨ha, hb⟩ := hc
      subst ha; subst hb
      simpa using congrArg (x :: ·) (ih _ _ hs)

mutual

/-- Embedding of Rust `Pattern::new` (src/pattern.rs).  A pattern starting
with `{` must end with `}` (`assert!`, embedded as `none`); its interior
(all bytes except the first and last) is split at depth-zero commas by
`splitTop` and each chunk is compiled recursively, the children of all the
chunks being appended in order.  An empty pattern is a leaf.  Anything else
splits once on `/` into a stub and a rest, giving a single-child node. -/
def Pattern.new (s : List Char) : Option Pattern :=
  if s.head? = some '\x7b' then
    if s.getLast? = some '\x7d' then
      match hsp : splitTop 0 ((s.drop 1).dropLast) with
      | none => none
      | some chunks => (Pattern.newList chunks).map Pattern.mk
    else none
  else if s.isEmpty then some (Pattern.mk [])
  else
    let p := (splitOnce '/' s).getD (s, [])
    (Pattern.new p.2).map (fun q => Pattern.mk [(p.1, q)])
termination_by 2 * s.length + 1
decreasing_by
· have hs : s ≠ [] := by rintro rfl; simp_all
  have hpos := List.length_pos.mpr hs
  obtain ⟨-, hspec⟩ := splitTop_spec _ _ _ hsp
  rw [List.length_dropLast, List.length_drop] at hspec
  omega
· have hs : s ≠ [] := by rintro rfl; simp_all
  have hpos := List.length_pos.mpr hs
  rcases hso : splitOnce '/' s with - | ⟨a, b⟩
  · show 2 * ([] : List Char).length + 1 < 2 * s.length + 1
    simp only [List.length_nil]
    omega
  · have hb := splitOnce_eq_append '/' s a b hso
    have hl : s.length = a.length + (b.length + 1) := by
      rw [hb]; simp
    simp only [hso, Option.getD_some]
    omega

/-- Compile each comma chunk of a braced pattern and append the resulting
children in order (the `acc.0.append(&mut Pattern::new(..).0)` calls). -/
def Pattern.newList : List (List Char) → Option (List (List Char × Pattern))
  | [] => some []
  | chunk :: rest => do
    let p ← Pattern.new chunk
    let l ← Pattern.newList rest
    pure (p.children ++ l)
termination_by chunks => 2 * ((chunks.map List.length).sum + chunks.length)

end

/-- Embedding of the document-tree abstraction offered by `roxmltree`: a
node has a tag name, optional text content and ordered children. -/
inductive Node where
  | mk (tag : List Char) (text : Option (List Char)) (children : List Node)

def Node.tag : Node → List Char
  | .mk t _ _ => t

def Node.text : Node → Option (List Char)
  | .mk _ t _ => t

def Node.children : Node → List Node
  | .mk _ _ c => c

/-- All ways of choosing one row from each table, in odometer order (the
rightmost table's index advancing fastest), exactly the order in which the
`indexes` vector of `cartesian_product` enumerates combinations. -/
def sections {T : Type} : List (List (List T)) → List (List (List T))
  | [] => [[]]
  | t :: rest => t.flatMap (fun r => (sections rest).map (r :: ·))

/-- Embedding of `cartesian_product` (src/main.rs).  An empty table list
gives an empty table; a table list containing an empty table gives one
empty row; a single table is returned unchanged; otherwise the odometer
loop emits, for every combination of one row per table in rightmost-fastest
order, the concatenation of the chosen rows. -/
def cartesian_product {T : Type} (tables : List (List (List T))) : List (List T) :=
  if tables.isEmpty then []
  else if tables.any (fun x => x.isEmpty) then [[]]
  else
    match tables with
    | [table] => table
    | _ => (sections tables).map (fun rows => rows.flatten)

/-- Embedding of `print_by_pattern` (src/main.rs).  A leaf pattern yields a
one-row, one-column table holding the node's text (empty when absent).
Otherwise each (segment, sub-pattern) pair filters the node's children by
`pattern_check` on the tag name, extracts each match recursively and
concatenates the tables; an empty result is replaced by a single row of
`count_leafs` empty strings; the per-segment tables are combined by
`cartesian_product`. -/
def print_by_pattern (p : Pattern) (n : Node) : List (List (List Char)) :=
  if p.is_leaf then [[n.text.getD []]]
  else
    cartesian_product
      (p.children.attach.map (fun c =>
        let table := ((n.children.filter (fun m => pattern_check c.1.1 m.tag)).map
          (fun m => print_by_pattern c.1.2 m)).flatten
        if table.isEmpty then [List.replicate c.1.2.count_leafs []] else table))
termination_by sizeOf p
decreasing_by exact sizeOf_lt_of_mem_children p c.1 c.2

/-- The table one (segment, sub-pattern) pair contributes inside
`print_by_pattern`, named so that theorems can speak about it. -/
def segTable (c : List Char × Pattern) (n : Node) : List (List (List Char)) :=
  let table := ((n.children.filter (fun m => pattern_check c.1 m.tag)).map
    (fun m => print_by_pattern c.2 m)).flatten
  if table.isEmpty then [List.replicate c.2.count_leafs []] else table

theorem print_by_pattern_eq (p : Pattern) (n : Node) :
    print_by_pattern p n =
      if p.is_leaf then [[n.text.getD []]]
      else cartesian_product (p.children.map (fun c => segTable c n)) := by
  rw [print_by_pattern]
  by_cases h : p.is_leaf
  · simp [h]
  · simp only [h, if_false]
    refine congrArg cartesian_product ?_
    exact List.attach_map_val p.children (fun c => segTable c n)

/-- Embedding of the output serialization inside `parse_file`: cells of a
row joined by `|`, each row terminated by a newline (empty rows contribute
a bare newline). -/
def render (table : List (List (List Char))) : List Char :=
  (table.map (fun line =>
    (match line with
     | [] => []
     | c :: rest => c ++ (rest.map (fun cell => '|' :: cell)).flatten) ++ ['\n'])).flatten

/-- Embedding of `parse_file` (src/main.rs).  `roxmltree::Document::parse`
is an external collaborator; its outcome is the `parsed` argument (the
parsed root node, or `none` for a parse failure).  The Rust code calls
`.unwrap()` on that outcome, so a parse failure panics the worker thread;
the panic is embedded as a `none` result, while success renders the
extracted table. -/
def parse_file (p : Pattern) (parsed : Option Node) : Option (List Char) :=
  match parsed with
  | none => none
  | some root => some (render (print_by_pattern p root))

/-! ## Traversal pipeline (src/process.rs)

The filesystem is embedded as a value: a path's metadata read yields an
I/O error or an `FsNode`; a directory holds its listable entries in order
plus an optional listing error produced by `next_entry` after them; a
file carries the outcome of opening it as a zip archive (consulted only
when the path ends in `.zip`); `other` stands for a metadata result that
is neither a directory nor a regular file.  Errors are abstract strings.

Executions are recorded as a `Trace`: the display paths delivered to the
callback, in order, and the paths logged to stderr by `catch_io`.  A
panic (`unreachable!()`) is embedded as a `none` result.  The futures
pushed onto `set` in `process_folder` are lazy and only polled by the
final `join_all`, so when the `?` operator aborts the listing loop the
collected futures are dropped unexecuted; the embedding therefore first
scans the entries (`scanEntries`) and runs the per-entry work
(`runEntries`) only when the whole scan succeeded.  `join_all`'s
concurrent interleaving is embedded as sequential execution in entry
order, which preserves the set of callback deliveries and diagnostics. -/

/-- A directory entry's file name: valid UTF-8, or not (`OsStr::to_str()`
returning `None`). -/
inductive EntryName where
  | utf8 (name : List Char)
  | bad

/-- Embedding of a filesystem subtree as seen through the metadata, listing
and archive-opening operations the traversal performs. -/
inductive FsNode where
  | file (arch : Except (List Char) (List (Except (List Char) (List Char))))
  | dir (entries : List (EntryName × Except (List Char) FsNode))
        (listErr : Option (List Char))
  | other

/-- The observable effects of a traversal: callback deliveries (display
paths, in order) and `catch_io` diagnostics (logged paths, in order). -/
structure Trace where
  calls : List (List Char)
  diags : List (List Char)
deriving DecidableEq

/-- Embedding of the listing loop of `process_folder` up to `join_all`:
walk the entries in order; a metadata failure makes `?` abort the loop
(`some false`); an entry whose metadata succeeds but is neither directory
nor file hits `unreachable!()` (`none`) unless its name was rejected as
non-UTF-8 first (`continue` — the name check precedes the type dispatch);
otherwise the scan continues (`some true` when every entry passes). -/
def scanEntries : List (EntryName × Except (List Char) FsNode) → Option Bool
  | [] => some true
  | (_, .error _) :: _ => some false
  | (.bad, .ok _) :: rest => scanEntries rest
  | (.utf8 _, .ok (.dir _ _)) :: rest => scanEntries rest
  | (.utf8 _, .ok (.file _)) :: rest => scanEntries rest
  | (.utf8 _, .ok .other) :: _ => none

/-- Embedding of the `for i in 0..zip.len()` loop of `process_file`: each
member yields a callback with display path `<archive>/<member>`; a
`by_index` failure aborts the loop via `?` and is logged with the archive's
path. -/
def zipEntriesRun (path : List Char) :
    List (Except (List Char) (List Char)) → Trace
  | [] => ⟨[], []⟩
  | .ok name :: rest =>
    let t := zipEntriesRun path rest
    ⟨(path ++ '/' :: name) :: t.calls, t.diags⟩
  | .error _ :: _ => ⟨[], [path]⟩

/-- Embedding of `process_file` (src/process.rs): a path ending in `.zip`
is opened as an archive (an opening failure is logged with the path) and
iterated member by member; any other file is delivered to the callback
directly. -/
def processFile (path : List Char)
    (arch : Except (List Char) (List (Except (List Char) (List Char)))) : Trace :=
  if ".zip".toList.isSuffixOf path then
    match arch with
    | .error _ => ⟨[], [path]⟩
    | .ok members => zipEntriesRun path members
  else ⟨[path], []⟩

mutual

/-- Embedding of `process_folder` (and the dispatch shared with
`process_path`) on a node whose metadata read succeeded.  For a directory:
if the scan of its entries aborted with an I/O error (or `next_entry`
itself failed after them), the collected futures are dropped unexecuted
and `catch_io` logs the directory's own path — nothing of the directory is
delivered; if the scan panicked, so does the traversal; otherwise every
entry's deferred work runs.  `other` hits `unreachable!()`. -/
def processNode (path : List Char) : FsNode → Option Trace
  | .file arch => some (processFile path arch)
  | .other => none
  | .dir entries listErr =>
    match scanEntries entries with
    | none => none
    | some false => some ⟨[], [path]⟩
    | some true =>
      match listErr with
      | some _ => some ⟨[], [path]⟩
      | none => runEntries path entries

/-- Embedding of the deferred per-entry futures of `process_folder`, polled
by `join_all` once the listing loop has finished: recurse into
subdirectories, hand files to `process_file`, skip entries whose name is
not valid UTF-8, and concatenate the traces in entry order. -/
def runEntries (path : List Char) :
    List (EntryName × Except (List Char) FsNode) → Option Trace
  | [] => some ⟨[], []⟩
  | (.bad, _) :: rest => runEntries path rest
  | (.utf8 _, .error _) :: rest => runEntries path rest
  | (.utf8 name, .ok node) :: rest => do
    let t ← processNode (path ++ '/' :: name) node
    let ts ← runEntries path rest
    pure ⟨t.calls ++ ts.calls, t.diags ++ ts.diags⟩

end

/-- Embedding of `process_path` (src/process.rs): stat the path; a
metadata failure is logged with the path and the subtree contributes
nothing; a directory or file is dispatched; anything else hits
`unreachable!()`. -/
def processPath (path : List Char) (meta : Except (List Char) FsNode) :
    Option Trace :=
  match meta with
  | .error _ => some ⟨[], [path]⟩
  | .ok node => processNode path node

/-! ## Properties of the cartesian product and the extraction engine -/

theorem sections_mem {T : Type} (tables : List (List (List T))) :
    ∀ (r : List (List T)),
      r ∈ sections tables ↔ List.Forall₂ (fun pick t => pick ∈ t) r tables := by
  induction tables with
  | nil =>
    intro r
    simp [sections, List.forall₂_nil_right_iff]
  | cons t rest ih =>
    intro r
    simp only [sections, List.mem_flatMap, List.mem_map,
      List.forall₂_cons_right_iff]
    constructor
    · rintro ⟨row, hrow, rs, hrs, rfl⟩
      exact ⟨row, rs, hrow, (ih rs).mp hrs, rfl⟩
    · rintro ⟨row, rs, hrow, hrs, rfl⟩
      exact ⟨row, hrow, rs, (ih rs).mpr hrs, rfl⟩

theorem sum_map_const {α : Type} (l : List α) (k : Nat) :
    (l.map (fun _ => k)).sum = l.length * k := by
  induction l with
  | nil => simp
  | cons a l ih => simp [ih, Nat.succ_mul, Nat.add_comm]

theorem sections_length {T : Type} (tables : List (List (List T))) :
    (sections tables).length = (tables.map List.length).prod := by
  induction tables with
  | nil => simp [sections]
  | cons t rest ih =>
    simp only [sections, List.length_flatMap, List.map_cons, List.prod_cons]
    have hfun : (List.length ∘ fun r : List T => (sections rest).map (r :: ·))
        = fun _ => (sections rest).length := by
      funext r; simp
    rw [hfun, sum_map_const, ih]

theorem sections_single {T : Type} (t : List (List T)) :
    (sections [t]).map (fun rows => rows.flatten) = t := by
  induction t with
  | nil => simp [sections]
  | cons r rs ih =>
    simp only [sections, List.flatMap_cons] at *
    simp_all

theorem cartesian_eq_sections {T : Type} (tables : List (List (List T)))
    (h1 : tables ≠ []) (h2 : ∀ t ∈ tables, t ≠ []) :
    cartesian_product tables = (sections tables).map (fun rows => rows.flatten) := by
  have ha : tables.any (fun x => x.isEmpty) = false := by
    rw [List.any_eq_false]
    intro x hx
    simpa [List.isEmpty_iff] using h2 x hx
  rcases tables with - | ⟨t, ts⟩
  · exact absurd rfl h1
  rcases ts with - | ⟨t₂, ts⟩
  · rw [cartesian_product]
    simp only [List.isEmpty_cons, Bool.false_eq_true, if_false, ha]
    rw [sections_single]
  · rw [cartesian_product]
    simp only [List.isEmpty_cons, Bool.false_eq_true, if_false, ha]
    intro table h
    simp at h

theorem cartesian_length {T : Type} (tables : List (List (List T)))
    (h1 : tables ≠ []) (h2 : ∀ t ∈ tables, t ≠ []) :
    (cartesian_product tables).length = (tables.map List.length).prod := by
  rw [cartesian_eq_sections tables h1 h2, List.length_map, sections_length]

theorem cartesian_pair {T : Type} (t₁ t₂ : List (List T))
    (h1 : t₁ ≠ []) (h2 : t₂ ≠ []) :
    cartesian_product [t₁, t₂] = t₁.flatMap (fun a => t₂.map (fun b => a ++ b)) := by
  rw [cartesian_eq_sections [t₁, t₂] (by simp) (by simp [h1, h2])]
  show (t₁.flatMap (fun a => (sections [t₂]).map (a :: ·))).map (fun rows => rows.flatten)
      = t₁.flatMap (fun a => t₂.map (fun b => a ++ b))
  rw [List.map_flatMap]
  congr 1
  funext a
  rw [List.map_map]
  have h3 : ((fun rows : List (List T) => rows.flatten) ∘ (a :: ·))
      = (fun rs : List (List T) => a ++ rs.flatten) := by
    funext rs; simp
  rw [h3]
  conv_rhs => rw [← sections_single t₂]
  rw [List.map_map]
  rfl

theorem segTable_ne_nil (c : List Char × Pattern) (n : Node) :
    segTable c n ≠ [] := by
  rw [segTable]
  split_ifs with h
  · simp
  · simpa [List.isEmpty_iff] using h

theorem not_leaf_children_ne_nil {p : Pattern} (hp : ¬ p.is_leaf = true) :
    p.children ≠ [] := by
  simpa [Pattern.is_leaf, List.isEmpty_iff] using hp

theorem forall₂_segTable_sum (n : Node) :
    ∀ (cs : List (List Char × Pattern)) (rs : List (List (List Char))),
      (∀ c ∈ cs, ∀ r ∈ segTable c n, r.length = c.2.count_leafs) →
      List.Forall₂ (fun r c => r ∈ segTable c n) rs cs →
      (rs.map List.length).sum = (cs.map (fun c => c.2.count_leafs)).sum := by
  intro cs rs hw hf
  induction hf with
  | nil => rfl
  | @cons r c rs' cs' h₁ h₂ ih =>
    have hr := hw c (by simp) r h₁
    simp only [List.map_cons, List.sum_cons, hr]
    rw [ih (fun c' hc' => hw c' (by simp [hc']))]

theorem print_width_aux : ∀ (k : Nat) (p : Pattern), sizeOf p ≤ k → ∀ (n : Node),
    ∀ row ∈ print_by_pattern p n, row.length = p.count_leafs := by
  intro k
  induction k with
  | zero =>
    intro p hp
    obtain ⟨l⟩ := p
    simp [Pattern.mk.sizeOf_spec] at hp
  | succ k ih =>
    intro p hp n row hrow
    rw [print_by_pattern_eq] at hrow
    by_cases hl : p.is_leaf
    · rw [if_pos hl] at hrow
      simp only [List.mem_singleton] at hrow
      subst hrow
      rw [Pattern.count_leafs_eq, if_pos hl]
      rfl
    · rw [if_neg hl] at hrow
      have hwidth : ∀ c ∈ p.children, ∀ r ∈ segTable c n, r.length = c.2.count_leafs := by
        intro c hc r hr
        have hsz : sizeOf c.2 ≤ k :=
          Nat.lt_succ_iff.mp (lt_of_lt_of_le (sizeOf_lt_of_mem_children p c hc) hp)
        rw [segTable] at hr
        split_ifs at hr with hemp
        · simp only [List.mem_singleton] at hr
          subst hr
          simp
        · obtain ⟨t, ht, hrt⟩ := List.mem_flatten.mp hr
          obtain ⟨m, hm, rfl⟩ := List.mem_map.mp ht
          exact ih c.2 hsz m r hrt
      have hne : (p.children.map (fun c => segTable c n)) ≠ [] := by
        simpa using not_leaf_children_ne_nil hl
      have hall : ∀ t ∈ (p.children.map (fun c => segTable c n)), t ≠ [] := by
        intro t ht
        obtain ⟨c, hc, rfl⟩ := List.mem_map.mp ht
        exact segTable_ne_nil c n
      rw [cartesian_eq_sections _ hne hall] at hrow
      obtain ⟨rs, hrs, rfl⟩ := List.mem_map.mp hrow
      have hmem := (sections_mem _ rs).mp hrs
      rw [List.forall₂_map_right_iff] at hmem
      rw [List.length_flatten, Pattern.count_leafs_eq, if_neg hl]
      exact forall₂_segTable_sum n p.children rs hwidth hmem

/-- Stated from the claim's wording for C3: a pattern string is
brace-balanced when a left-to-right scan never meets a closing brace with
the nesting depth already zero.  This is the claim's own notion, kept
separate from the compiler so the two can be compared. -/
def balancedBraces (depth : Nat) : List Char → Bool
  | [] => true
  | c :: rest =>
    if c = '\x7b' then balancedBraces (depth + 1) rest
    else if c = '\x7d' then
      if depth = 0 then false else balancedBraces (depth - 1) rest
    else balancedBraces depth rest

theorem new_isSome_of_no_brace : ∀ (k : Nat) (s : List Char), s.length ≤ k →
    (∀ c ∈ s, c ≠ '\x7b') → (Pattern.new s).isSome = true := by
  intro k
  induction k with
  | zero =>
    intro s hs h
    have hnil : s = [] := List.length_eq_zero.mp (Nat.le_zero.mp hs)
    subst hnil
    rw [Pattern.new]
    simp
  | succ k ih =>
    intro s hs h
    rw [Pattern.new]
    have hh : ¬ s.head? = some '\x7b' := by
      cases s with
      | nil => simp
      | cons c cs =>
        simp only [List.head?_cons, Option.some.injEq]
        exact h c (by simp)
    rw [if_neg hh]
    by_cases he : s.isEmpty
    · rw [if_pos he]; simp
    · rw [if_neg he]
      rcases hso : splitOnce '/' s with - | ⟨a, b⟩
      · simp only [hso, Option.getD_none]
        have h0 := ih [] (by simp) (by simp)
        simpa [Option.isSome_map] using h0
      · have happ := splitOnce_eq_append '/' s a b hso
        have hlb : b.length ≤ k := by
          have hsl : s.length = a.length + (b.length + 1) := by rw [happ]; simp
          omega
        have hmb : ∀ c ∈ b, c ≠ '\x7b' := fun c hc => h c (by rw [happ]; simp [hc])
        have hb := ih b hlb hmb
        simp only [hso, Option.getD_some]
        simpa [Option.isSome_map] using hb

/-- Scan of one brace-group alternative: tracks the nesting depth and
fails on a depth-zero closing brace or a depth-zero comma; returns the
final depth.  An alternative with `topScan 0 a = some 0` is exactly one
that the compiler's depth-zero comma split leaves intact. -/
def topScan (depth : Nat) : List Char → Option Nat
  | [] => some depth
  | c :: rest =>
    if c = '\x7b' then topScan (depth + 1) rest
    else if c = '\x7d' then
      if depth = 0 then none else topScan (depth - 1) rest
    else if c = ',' then
      if depth = 0 then none else topScan depth rest
    else topScan depth rest

/-- Prepend a prefix onto the first chunk of a chunk list. -/
def prependChunk (a : List Char) : List (List Char) → List (List Char)
  | [] => [a]
  | x :: xs => (a ++ x) :: xs

/-- Join alternatives with commas, as they would be written between the
braces of a group pattern. -/
def joinComma : List (List Char) → List Char
  | [] => []
  | [a] => a
  | a :: rest => a ++ ',' :: joinComma rest

theorem consHead_prependChunk (c : Char) (a : List Char)
    (cs : List (List Char)) :
    consHead c (prependChunk a cs) = prependChunk (c :: a) cs := by
  cases cs <;> rfl

theorem splitTop_append (a : List Char) : ∀ (d d' : Nat) (tail : List Char),
    topScan d a = some d' →
    splitTop d (a ++ tail) = (splitTop d' tail).map (prependChunk a) := by
  induction a with
  | nil =>
    intro d d' tail hts
    simp only [topScan, Option.some.injEq] at hts
    subst hts
    simp only [List.nil_append]
    rcases hsp : splitTop d tail with - | cs
    · rfl
    · obtain ⟨hne, -⟩ := splitTop_spec tail d cs hsp
      cases cs with
      | nil => exact absurd rfl hne
      | cons x xs => simp [prependChunk]
  | cons c a' ih =>
    intro d d' tail hts
    rw [topScan] at hts
    rw [List.cons_append, splitTop]
    split_ifs at hts ⊢ with h1 h2 h3 h4 h5
    · rw [ih _ _ tail hts, Option.map_map]
      congr 1
      funext cs
      exact consHead_prependChunk c a' cs
    · rw [ih _ _ tail hts, Option.map_map]
      congr 1
      funext cs
      exact consHead_prependChunk c a' cs
    · rw [ih _ _ tail hts, Option.map_map]
      congr 1
      funext cs
      exact consHead_prependChunk c a' cs
    · rw [ih _ _ tail hts, Option.map_map]
      congr 1
      funext cs
      exact consHead_prependChunk c a' cs

theorem splitTop_joinComma : ∀ (alts : List (List Char)), alts ≠ [] →
    (∀ a ∈ alts, topScan 0 a = some 0) →
    splitTop 0 (joinComma alts) = some alts := by
  intro alts
  induction alts with
  | nil => intro h; exact absurd rfl h
  | cons a rest ih =>
    intro _ hsafe
    cases rest with
    | nil =>
      show splitTop 0 (joinComma [a]) = some [a]
      rw [joinComma]
      have := splitTop_append a 0 0 [] (hsafe a (by simp))
      rw [List.append_nil] at this
      rw [this]
      simp [splitTop, prependChunk]
    | cons b rest' =>
      rw [joinComma, splitTop_append a 0 0 (',' :: joinComma (b :: rest'))
        (hsafe a (by simp))]
      rw [splitTop]
      simp only [if_pos rfl, reduceIte]
      rw [ih (by simp) (fun x hx => hsafe x (by simp [hx]))]
      simp [prependChunk]
      intro h
      simp at h

theorem newList_forall₂ : ∀ (alts : List (List Char)) (ps : List Pattern),
    List.Forall₂ (fun a p => Pattern.new a = some p) alts ps →
    Pattern.newList alts = some ((ps.map Pattern.children).flatten) := by
  intro alts ps h
  induction h with
  | nil => simp [Pattern.newList]
  | @cons a p alts' ps' ha hrest ih =>
    simp [Pattern.newList, ha, ih]

/-! ## Traversal lemmas -/

theorem scanEntries_error (entries : List (EntryName × Except (List Char) FsNode))
    (hnp : ∀ e ∈ entries, ∀ name, e ≠ (EntryName.utf8 name, Except.ok FsNode.other))
    (hex : ∃ e ∈ entries, ∃ msg, e.2 = Except.error msg) :
    scanEntries entries = some false := by
  induction entries with
  | nil => simp at hex
  | cons e rest ih =>
    obtain ⟨nm, meta⟩ := e
    cases meta with
    | error msg => cases nm <;> rfl
    | ok node =>
      have hrest : ∃ e ∈ rest, ∃ msg, e.2 = Except.error msg := by
        obtain ⟨e', he', msg, hmsg⟩ := hex
        rcases List.mem_cons.mp he' with rfl | hmem
        · simp at hmsg
        · exact ⟨e', hmem, msg, hmsg⟩
      have hnprest : ∀ e ∈ rest, ∀ name, e ≠ (EntryName.utf8 name, Except.ok FsNode.other) :=
        fun e he => hnp e (List.mem_cons_of_mem _ he)
      cases nm with
      | bad => exact ih hnprest hrest
      | utf8 name =>
        cases node with
        | dir es le => exact ih hnprest hrest
        | file arch => exact ih hnprest hrest
        | other => exact absurd rfl (hnp _ (by simp) name)

theorem scanEntries_ne_none (entries : List (EntryName × Except (List Char) FsNode))
    (hnp : ∀ e ∈ entries, ∀ name, e ≠ (EntryName.utf8 name, Except.ok FsNode.other)) :
    scanEntries entries ≠ none := by
  induction entries with
  | nil => simp [scanEntries]
  | cons e rest ih =>
    obtain ⟨nm, meta⟩ := e
    have hnprest : ∀ e ∈ rest, ∀ name, e ≠ (EntryName.utf8 name, Except.ok FsNode.other) :=
      fun e he => hnp e (List.mem_cons_of_mem _ he)
    cases meta with
    | error msg => cases nm <;> simp [scanEntries]
    | ok node =>
      cases nm with
      | bad => exact ih hnprest
      | utf8 name =>
        cases node with
        | dir es le => exact ih hnprest
        | file arch => exact ih hnprest
        | other => exact absurd rfl (hnp _ (by simp) name)

/-! ## Claim theorems -/

/-- C2 (code_bug evidence): evaluating `pattern_check` at the failing
inputs.  The claim says a pattern with several stars matches when the
target starts with the part before the first star, ends with the part
after the last star, and contains the interior sections in order — so
`a*b*c` should match `abxc` and `**` should match everything.  The code
instead keeps the last `*` inside the suffix handed to `ends_with`
(`split_at(last_index)`), so such patterns only match targets that
literally contain a `*`, as the third conjunct shows. -/
theorem pattern_check_multi_star_cex :
    pattern_check "a*b*c".toList "abxc".toList = false
    ∧ pattern_check "**".toList "a".toList = false
    ∧ pattern_check "a*b*c".toList "ab*c".toList = true
    ∧ pattern_check "a*b".toList "axxb".toList = true
    ∧ pattern_check "a*a".toList "a".toList = true
    ∧ pattern_check "*".toList "anything".toList = true := by
  decide

/-- C8 (confirmed): a parse failure is fatal to the worker handling the
document — `parse_file` calls `.unwrap()` on the parse outcome, embedded
as a `none` (panic) result — whereas a successful parse always returns
output, and a filesystem I/O error on a path is merely logged with the
path and skipped. -/
theorem parse_failure_is_fatal :
    (∀ p : Pattern, parse_file p none = none)
    ∧ (∀ (p : Pattern) (root : Node), (parse_file p (some root)).isSome = true)
    ∧ (∀ (path e : List Char), processPath path (Except.error e)
        = some ⟨[], [path]⟩) :=
  ⟨fun _ => rfl, fun _ _ => rfl, fun _ _ => rfl⟩

/-- C9 (confirmed): a path whose metadata read succeeds but reports
neither a directory nor a regular file hits `unreachable!()` — embedded as
a `none` (panic) result — both in `process_path` and for a directory entry
in `process_folder`, whereas a metadata-read failure is logged and
skipped. -/
theorem unexpected_file_type_panics :
    (∀ path : List Char, processPath path (Except.ok FsNode.other) = none)
    ∧ (∀ (path e : List Char), processPath path (Except.error e) = some ⟨[], [path]⟩)
    ∧ (∀ (path name : List Char)
        (rest : List (EntryName × Except (List Char) FsNode))
        (le : Option (List Char)),
        processNode path
          (FsNode.dir ((EntryName.utf8 name, Except.ok FsNode.other) :: rest) le)
          = none) :=
  ⟨fun _ => rfl, fun _ _ => rfl, fun _ _ _ _ => rfl⟩

/-- C10 (counterexample): the claim says an entry whose file name is not
valid UTF-8 is always silently skipped — no callback, no diagnostic, and
traversal of the remaining entries continues.  But `process_folder` reads
the entry's metadata before the name check, so a non-UTF-8-named entry
whose metadata read fails produces a diagnostic (logged with the
directory's path) and aborts the directory: the valid sibling `a.xml` is
not delivered. -/
theorem bad_name_metadata_error_cex :
    processNode ['d'] (FsNode.dir
      [(EntryName.bad, Except.error ['e']),
       (EntryName.utf8 "a.xml".toList, Except.ok (FsNode.file (Except.ok [])))] none)
      = some ⟨[], [['d']]⟩ := by
  decide

/-- C10 (amended): an entry whose file name is not valid UTF-8 and whose
metadata read succeeds is silently skipped — `process_folder` behaves
exactly as if the entry were absent (no callback, no diagnostic, the
remaining entries are still traversed, and no panic occurs even when the
entry's type is neither file nor directory, since the `continue` happens
before the type dispatch).  When such an entry's metadata read fails, it
is handled like any other metadata failure and aborts the directory. -/
theorem bad_name_entry_skipped (path : List Char) (node : FsNode)
    (rest : List (EntryName × Except (List Char) FsNode))
    (le : Option (List Char)) :
    processNode path (FsNode.dir ((EntryName.bad, Except.ok node) :: rest) le)
      = processNode path (FsNode.dir rest le) := rfl

/-- C1 (counterexample): the claim says an I/O failure on one directory
entry's metadata leaves every non-failing sibling of the same directory
delivered exactly once.  In the code the per-entry futures are only polled
by `join_all` after the listing loop finishes, and a metadata failure makes
the `?` operator drop them unexecuted: with entries `a.xml` (fine) and `b`
(metadata error), nothing at all is delivered and one diagnostic carrying
the directory's path is logged; the second conjunct shows `a.xml` is
delivered once when the failing sibling is absent. -/
theorem metadata_error_loses_sibling_cex :
    processNode ['d'] (FsNode.dir
      [(EntryName.utf8 "a.xml".toList, Except.ok (FsNode.file (Except.ok []))),
       (EntryName.utf8 ['b'], Except.error ['e'])] none)
      = some ⟨[], [['d']]⟩
    ∧ processNode ['d'] (FsNode.dir
      [(EntryName.utf8 "a.xml".toList, Except.ok (FsNode.file (Except.ok [])))] none)
      = some ⟨["d/a.xml".toList], []⟩ := by
  decide

/-- C1 (amended): an I/O failure while stat-ing a directory entry or while
listing the directory is caught and logged exactly once — with the
directory's own path — and makes that whole directory contribute nothing:
no entry of it (failing or not) reaches the callback, because the deferred
per-entry futures are dropped when the listing loop aborts.  The failure
never escapes the directory: in the second conjunct the parent's other
entry `f` is still delivered exactly once while the failing subdirectory
`d` contributes one diagnostic and no callbacks. -/
theorem metadata_error_aborts_directory :
    (∀ (path : List Char) (entries : List (EntryName × Except (List Char) FsNode))
        (listErr : Option (List Char)),
      (∀ e ∈ entries, ∀ name, e ≠ (EntryName.utf8 name, Except.ok FsNode.other)) →
      ((∃ e ∈ entries, ∃ msg, e.2 = Except.error msg) ∨ listErr ≠ none) →
      processNode path (FsNode.dir entries listErr) = some ⟨[], [path]⟩)
    ∧ processNode ['r'] (FsNode.dir
        [(EntryName.utf8 ['d'], Except.ok
            (FsNode.dir [(EntryName.utf8 ['x'], Except.error ['e'])] none)),
         (EntryName.utf8 ['f'], Except.ok (FsNode.file (Except.ok [])))] none)
        = some ⟨[['r', '/', 'f']], [['r', '/', 'd']]⟩ := by
  constructor
  · intro path entries listErr hnp herr
    rcases herr with hex | hle
    · have hs := scanEntries_error entries hnp hex
      simp [processNode, hs]
    · have hs := scanEntries_ne_none entries hnp
      rcases hsc : scanEntries entries with - | b
      · exact absurd hsc hs
      · cases b with
        | false => simp [processNode, hsc]
        | true =>
          rcases hli : listErr with - | le
          · exact absurd hli hle
          · simp [processNode, hsc]
  · decide

/-- C1 (amended, witness): the general abort statement applied to the
directory `d` with one fine entry and one whose metadata read fails. -/
theorem metadata_error_aborts_directory_witness :
    processNode ['d'] (FsNode.dir
      [(EntryName.utf8 "a.xml".toList, Except.ok (FsNode.file (Except.ok []))),
       (EntryName.utf8 ['b'], Except.error ['e'])] none)
      = some ⟨[], [['d']]⟩ :=
  metadata_error_aborts_directory.1 ['d'] _ none
    (by rintro e he name rfl; simp at he)
    (Or.inl ⟨(EntryName.utf8 ['b'], Except.error ['e']), by simp, ['e'], rfl⟩)

/-- C3 (counterexample): the claim says compilation succeeds on every
pattern whose braces are balanced (no closing brace met at depth zero) and
fails only on unbalanced ones.  The pattern `\x7ba\x7d,\x7bb\x7d` is
balanced in exactly that sense, yet `Pattern::new` aborts: it treats a
leading open brace as wrapping the whole pattern, skips its first byte in
the depth scan, and so trips `assert_ne!(depth, 0)` at the first closing
brace. -/
theorem compile_fails_on_balanced_cex :
    balancedBraces 0 ['\x7b', 'a', '\x7d', ',', '\x7b', 'b', '\x7d'] = true
    ∧ Pattern.new ['\x7b', 'a', '\x7d', ',', '\x7b', 'b', '\x7d'] = none := by
  constructor
  · decide
  · simp [Pattern.new, Pattern.newList, splitTop, consHead, splitOnce]

/-- C3 (amended): compilation never aborts on a pattern containing no open
brace at all — in particular a stray closing brace alone never aborts, as
the second conjunct shows on the unbalanced `a\x7d` — while a pattern that
does start with an open brace is required by the compiler to be one single
brace group spanning the whole string, so compilation can abort even on
balanced strings. -/
theorem no_open_brace_compiles :
    (∀ s : List Char, (∀ c ∈ s, c ≠ '\x7b') → (Pattern.new s).isSome = true)
    ∧ (Pattern.new ['a', '\x7d']).isSome = true
    ∧ balancedBraces 0 ['a', '\x7d'] = false := by
  refine ⟨fun s h => new_isSome_of_no_brace s.length s le_rfl h, ?_, by decide⟩
  exact new_isSome_of_no_brace 2 ['a', '\x7d'] (by simp) (by decide)

/-- C3 (amended, witness): the amended statement applied to a concrete
brace-free pattern containing a star and a slash. -/
theorem no_open_brace_compiles_witness :
    (Pattern.new ['a', '*', '/', 'b']).isSome = true :=
  no_open_brace_compiles.1 ['a', '*', '/', 'b'] (by decide)

theorem new_brace_eq (s : List Char) (hhead : s.head? = some '\x7b')
    (hlast : s.getLast? = some '\x7d') (chunks : List (List Char))
    (cl : List (List Char × Pattern))
    (hsp : splitTop 0 ((s.drop 1).dropLast) = some chunks)
    (hnl : Pattern.newList chunks = some cl) :
    Pattern.new s = some (Pattern.mk cl) := by
  rw [Pattern.new, if_pos hhead, if_pos hlast]
  split
  · simp_all
  · rename_i cs hcs
    rw [hsp] at hcs
    obtain rfl : chunks = cs := by simpa using hcs
    rw [hnl]
    rfl

/-- C7 (counterexample): the claim says each comma-separated alternative
of a brace group compiles to one-or-more (segment, child) pairs.  In the
pattern `\x7ba,,b\x7d` the middle alternative is the empty string, which
compiles to a pattern with zero pairs (third conjunct); the group still
concatenates the alternatives' pairs in listed order, yielding exactly the
two children `a` and `b`. -/
theorem empty_alternative_cex :
    Pattern.new ['\x7b', 'a', ',', ',', 'b', '\x7d']
      = some (Pattern.mk [(['a'], Pattern.mk []), (['b'], Pattern.mk [])])
    ∧ Pattern.new [] = some (Pattern.mk [])
    ∧ (Pattern.mk ([] : List (List Char × Pattern))).children.length = 0 := by
  refine ⟨?_, ?_, rfl⟩
  · simp [Pattern.new, Pattern.newList, splitTop, consHead, splitOnce,
      Pattern.children]
  · simp [Pattern.new]

/-- C7 (amended): for alternatives that are individually intact at the
top brace level (no depth-zero comma or closing brace, and balanced, i.e.
`topScan 0 a = some 0`), compiling the brace group written
`\x7b`alt1`,`alt2`,`...`\x7d` yields a group whose children are the
concatenation, in listed left-to-right order, of the children produced by
compiling each alternative — commas inside nested braces do not split, and
each alternative contributes zero-or-more (segment, child) pairs (an empty
alternative contributes none).  Compilation of the same string is a pure
function, so it is deterministic. -/
theorem brace_group_children_concat (alts : List (List Char)) (ps : List Pattern)
    (hne : alts ≠ [])
    (hsafe : ∀ a ∈ alts, topScan 0 a = some 0)
    (hcomp : List.Forall₂ (fun a p => Pattern.new a = some p) alts ps) :
    Pattern.new ('\x7b' :: (joinComma alts ++ ['\x7d']))
      = some (Pattern.mk ((ps.map Pattern.children).flatten)) := by
  refine new_brace_eq ('\x7b' :: (joinComma alts ++ ['\x7d'])) rfl ?_ alts _ ?_
    (newList_forall₂ alts ps hcomp)
  · rw [show ('\x7b' :: (joinComma alts ++ ['\x7d']))
        = ('\x7b' :: joinComma alts) ++ ['\x7d'] from rfl]
    exact List.getLast?_concat _
  · have hint : (('\x7b' :: (joinComma alts ++ ['\x7d'])).drop 1).dropLast
        = joinComma alts := by
      simp [List.dropLast_concat]
    rw [hint]
    exact splitTop_joinComma alts hne hsafe

/-- C7 (amended, witness): the amended statement applied to the
alternatives `a`, empty, `b`, which produce the compiled form of the
pattern `\x7ba,,b\x7d`. -/
theorem brace_group_children_concat_witness :
    Pattern.new ['\x7b', 'a', ',', ',', 'b', '\x7d']
      = some (Pattern.mk [(['a'], Pattern.mk []), (['b'], Pattern.mk [])]) := by
  have hcomp : List.Forall₂ (fun a p => Pattern.new a = some p)
      [['a'], ([] : List Char), ['b']]
      [Pattern.mk [(['a'], Pattern.mk [])], Pattern.mk [],
       Pattern.mk [(['b'], Pattern.mk [])]] := by
    refine List.Forall₂.cons ?_ (List.Forall₂.cons ?_
      (List.Forall₂.cons ?_ List.Forall₂.nil))
    · simp [Pattern.new, Pattern.newList, splitTop, consHead, splitOnce]
    · simp [Pattern.new]
    · simp [Pattern.new, Pattern.newList, splitTop, consHead, splitOnce]
  have h := brace_group_children_concat _ _ (by simp) (by decide) hcomp
  simpa [joinComma, Pattern.children] using h

theorem print_leaf (m : Node) :
    print_by_pattern (Pattern.mk []) m = [[m.text.getD []]] := by
  rw [print_by_pattern_eq]
  rfl

/-- C4 (confirmed): every row of the table returned by the extraction
engine for pattern `p` has exactly `p.count_leafs` cells — 1 for a leaf,
the sum of the children's leaf counts for a group. -/
theorem extract_row_width (p : Pattern) (n : Node) :
    ∀ row ∈ print_by_pattern p n, row.length = p.count_leafs :=
  print_width_aux (sizeOf p) p le_rfl n

/-- C4 (witness): the row-width statement applied to a leaf pattern and a
node with text `x`. -/
theorem extract_row_width_witness :
    [['x']] ∈ print_by_pattern (Pattern.mk []) (Node.mk ['r'] (some ['x']) [])
    ∧ ([['x']] : List (List Char)).length = (Pattern.mk []).count_leafs :=
  ⟨by simp [print_leaf, Node.text],
   extract_row_width (Pattern.mk []) (Node.mk ['r'] (some ['x']) []) [['x']]
     (by simp [print_leaf, Node.text])⟩

/-- C5 (confirmed): for a group pattern the extraction result is the
generalized cartesian product of the per-segment tables: its row count is
the product of the per-segment row counts; every output row is the
column-wise concatenation, in segment order, of one chosen row per
segment table; and for two segments the product is exactly the full cross
product, the second segment's rows cycling fastest. -/
theorem extract_cartesian (p : Pattern) (n : Node) (hp : p.is_leaf = false) :
    ((print_by_pattern p n).length
        = ((p.children.map (fun c => segTable c n)).map List.length).prod)
    ∧ (∀ row ∈ print_by_pattern p n, ∃ picks,
        List.Forall₂ (fun r t => r ∈ t) picks
          (p.children.map (fun c => segTable c n))
        ∧ row = picks.flatten)
    ∧ (∀ (t₁ t₂ : List (List (List Char))), t₁ ≠ [] → t₂ ≠ [] →
        cartesian_product [t₁, t₂]
          = t₁.flatMap (fun a => t₂.map (fun b => a ++ b))) := by
  have hne : p.children.map (fun c => segTable c n) ≠ [] := by
    simpa using not_leaf_children_ne_nil (by simp [hp])
  have hall : ∀ t ∈ p.children.map (fun c => segTable c n), t ≠ [] := by
    intro t ht
    obtain ⟨c, hc, rfl⟩ := List.mem_map.mp ht
    exact segTable_ne_nil c n
  have hpr : print_by_pattern p n
      = cartesian_product (p.children.map (fun c => segTable c n)) := by
    rw [print_by_pattern_eq, if_neg (by simp [hp])]
  refine ⟨?_, ?_, fun t₁ t₂ h1 h2 => cartesian_pair t₁ t₂ h1 h2⟩
  · rw [hpr, cartesian_length _ hne hall]
  · intro row hrow
    rw [hpr, cartesian_eq_sections _ hne hall] at hrow
    obtain ⟨rs, hrs, rfl⟩ := List.mem_map.mp hrow
    exact ⟨rs, (sections_mem _ rs).mp hrs, rfl⟩

/-- C5 (witness): the two-segment cross-product law applied to a segment
table with 2 rows and one with 3 rows (single-cell leaf rows), giving
exactly the 6 rows of the full cross product. -/
theorem extract_cartesian_witness :
    cartesian_product
      [[[['1']], [['2']]], [[['3']], [['4']], [['5']]]]
      = [[['1'], ['3']], [['1'], ['4']], [['1'], ['5']],
         [['2'], ['3']], [['2'], ['4']], [['2'], ['5']]] := by
  rw [(extract_cartesian (Pattern.mk [(['a'], Pattern.mk [])])
      (Node.mk ['r'] none []) (by decide)).2.2
      [[['1']], [['2']]] [[['3']], [['4']], [['5']]] (by decide) (by decide)]
  decide

/-- C6 (confirmed): a segment that matches zero children of the node
contributes exactly the substituted single row of `count_leafs` empty
strings — a one-row table of the right width — and the group's row count
is the product of the per-segment row counts, so the absent segment
multiplies it by 1 rather than 0. -/
theorem absent_segment_identity (p : Pattern) (n : Node)
    (c : List Char × Pattern) (hp : p.is_leaf = false) (hc : c ∈ p.children)
    (habsent : ((n.children.filter (fun m => pattern_check c.1 m.tag)).map
        (fun m => print_by_pattern c.2 m)).flatten = []) :
    segTable c n = [List.replicate c.2.count_leafs []]
    ∧ (segTable c n).length = 1
    ∧ (List.replicate c.2.count_leafs ([] : List Char)).length = c.2.count_leafs
    ∧ (print_by_pattern p n).length
        = ((p.children.map (fun c' => segTable c' n)).map List.length).prod := by
  have hseg : segTable c n = [List.replicate c.2.count_leafs []] := by
    simp only [segTable]
    rw [if_pos (by rw [List.isEmpty_iff]; exact habsent)]
  have hne : p.children.map (fun c' => segTable c' n) ≠ [] := by
    simpa using not_leaf_children_ne_nil (by simp [hp])
  have hall : ∀ t ∈ p.children.map (fun c' => segTable c' n), t ≠ [] := by
    intro t ht
    obtain ⟨c', hc', rfl⟩ := List.mem_map.mp ht
    exact segTable_ne_nil c' n
  have hpr : print_by_pattern p n
      = cartesian_product (p.children.map (fun c' => segTable c' n)) := by
    rw [print_by_pattern_eq, if_neg (by simp [hp])]
  refine ⟨hseg, by rw [hseg]; rfl, List.length_replicate _ _, ?_⟩
  rw [hpr, cartesian_length _ hne hall]

/-- C6 (witness): the absence statement applied to a two-segment group on
a node that has `a` children but no `b` child: the `b` segment's table is
the single substituted row of one empty string. -/
theorem absent_segment_identity_witness :
    segTable (['b'], Pattern.mk [])
        (Node.mk ['r'] none [Node.mk ['a'] (some ['1']) []])
      = [List.replicate 1 []] := by
  have hc1 : (Pattern.mk ([] : List (List Char × Pattern))).count_leafs = 1 := by
    rw [Pattern.count_leafs_eq]
    rfl
  have h := (absent_segment_identity
    (Pattern.mk [(['a'], Pattern.mk []), (['b'], Pattern.mk [])])
    (Node.mk ['r'] none [Node.mk ['a'] (some ['1']) []])
    (['b'], Pattern.mk []) (by decide) (by simp [Pattern.children])
    (by decide)).1
  rw [h]
  rw [show ((['b'], Pattern.mk ([] : List (List Char × Pattern))).2) = Pattern.mk [] from rfl,
    hc1]

end XmlQuery
